import Mathlib

/-!
Shallow embedding of the balance-app ingestion pipeline (Go service).

Modelled components:
- the decoded RabbitMQ message and its field-alias accessors
  (processor.BalanceMessage, GetAmount, GetTimestamp);
- the repository upsert into the balances table
  (BalanceRepository.SaveBalance / SaveBalancesBatch, the MySQL
  ON DUPLICATE KEY clause with the version guard and updated_at = NOW);
- the event-log insert (EventRepository.SaveEventsBatch, whose declared
  conflict clause is inert because the AutoMigrated schema has no unique
  index on event_id) and the EventExists pre-check;
- the batch handler (processor.handleBatch) with its validation loop,
  in-batch event_id dedup, store-level idempotency check, per-entity
  highest-version dedup, and cache refresh, plus the surrounding flush
  in ProcessBatches that acks or nacks the whole batch;
- the consumer worker path (consumer.processMessage) with its timed send
  into the bounded updates channel, and the reconnect loop with linear
  backoff (consumer.reconnect);
- the version-guarded cache synchronizer of the balance-consumer variant
  (CacheSynchronizer.syncCache) whose cache holds versions.

Modelling conventions: monetary amounts are signed decimals in the source
(float64 / DECIMAL); they are modelled as integers (fixed-point), which
preserves every comparison the code performs (equality with zero and plain
equality), since JSON cannot encode NaN. Wall-clock write time (NOW()) is
an abstract Nat supplied to each write. Timestamps carried inside messages
are kept as the raw strings; parsing them to time.Time is not modelled
because no verified property depends on it. Database tables are modelled
as association lists keyed by their unique key, and repository errors are
modelled by boolean outcome flags supplied to the batch handler.
-/

namespace BalanceApp

/-- Decoded RabbitMQ message (processor.BalanceMessage). Both field
spellings for the amount (new_amount / amount) and the timestamp
(updated_at / timestamp) are kept, as in the Go struct. -/
structure BalanceMessage where
  userID : Nat
  newAmount : Int
  amount : Int
  version : Nat
  timestamp : String
  updatedAt : String
  eventID : String
  deriving DecidableEq, Repr

/-- GetAmount: returns NewAmount when it is non-zero, otherwise Amount. -/
def GetAmount (m : BalanceMessage) : Int :=
  if m.newAmount ≠ 0 then m.newAmount else m.amount

/-- GetTimestamp: returns UpdatedAt when it is non-empty, otherwise Timestamp. -/
def GetTimestamp (m : BalanceMessage) : String :=
  if m.updatedAt ≠ "" then m.updatedAt else m.timestamp

/-- A stored row of the balances table (model.Balance as persisted):
unique key user_id, plus amount, version and the updated_at column,
modelled as an abstract write-time stamp. -/
structure StoredBalance where
  userID : Nat
  amount : Int
  version : Nat
  updatedAt : Nat
  deriving DecidableEq, Repr

/-- model.Balance as passed to SaveBalancesBatch (user_id, amount, version). -/
structure BalanceRow where
  userID : Nat
  amount : Int
  version : Nat
  deriving DecidableEq, Repr

/-- Lookup of the balances row by its unique key user_id. -/
def balLookup : List StoredBalance → Nat → Option StoredBalance
  | [], _ => none
  | r :: rest, u => if r.userID = u then some r else balLookup rest u

/-- One row of the upsert issued by SaveBalance / SaveBalancesBatch:
INSERT ... ON DUPLICATE KEY (user_id) UPDATE
  amount  = CASE WHEN balances.version <= VALUES(version)
                 THEN VALUES(amount) ELSE balances.amount END,
  version = GREATEST(balances.version, VALUES(version)),
  updated_at = NOW(). -/
def upsertRow (now : Nat) (b : BalanceRow) : List StoredBalance → List StoredBalance
  | [] => [⟨b.userID, b.amount, b.version, now⟩]
  | r :: rest =>
    if r.userID = b.userID then
      ⟨b.userID,
        if r.version ≤ b.version then b.amount else r.amount,
        max r.version b.version,
        now⟩ :: rest
    else
      r :: upsertRow now b rest

/-- SaveBalancesBatch: the bulk upsert, row by row. -/
def SaveBalancesBatch (now : Nat) (t : List StoredBalance) (bs : List BalanceRow) :
    List StoredBalance :=
  bs.foldl (fun acc b => upsertRow now b acc) t

/-- SaveBalance: the single-row upsert (same ON DUPLICATE KEY clause). -/
def SaveBalance (now : Nat) (t : List StoredBalance) (b : BalanceRow) :
    List StoredBalance :=
  upsertRow now b t

/-- A row of the balance_events table (model.BalanceEvent): entity, amount,
version, the event timestamp string carried by the message, and event_id. -/
structure BalanceEvent where
  userID : Nat
  amount : Int
  version : Nat
  updatedAt : String
  eventID : String
  deriving DecidableEq, Repr

/-- EventExists: SELECT count(1) WHERE event_id = ? rendered as a boolean. -/
def EventExists (events : List BalanceEvent) (eid : String) : Bool :=
  events.any (fun e => e.eventID = eid)

/-- SaveEventsBatch: the bulk insert of event rows. The repository declares
clause.OnConflict on event_id with DoNothing, which gorm renders on MySQL
as INSERT ... ON DUPLICATE KEY UPDATE id=id — a clause that fires only on
a unique-key violation. The AutoMigrated balance_events schema gives
event_id only a non-unique index (model.BalanceEvent) and its sole unique
key is the auto-increment primary key, so the clause never fires: every
row is inserted, and a duplicate event_id is NOT skipped. -/
def SaveEventsBatch (t : List BalanceEvent) (es : List BalanceEvent) :
    List BalanceEvent :=
  es.foldl (fun acc e => acc ++ [e]) t

/-- sync.Map Store on the amount-only cache of the go-service variant:
replace the entry for the key if present, otherwise insert it. -/
def cacheStore : List (Nat × Int) → Nat → Int → List (Nat × Int)
  | [], k, v => [(k, v)]
  | kv :: rest, k, v =>
    if kv.1 = k then (k, v) :: rest else kv :: cacheStore rest k v

/-- GetBalancesByUserIDs: SELECT rows WHERE user_id IN ids. -/
def GetBalancesByUserIDs (t : List StoredBalance) (ids : List Nat) :
    List StoredBalance :=
  t.filter (fun r => ids.contains r.userID)

/-- An in-flight delivery: the decoded payload plus its delivery tag. -/
structure IncomingUpdate where
  payload : BalanceMessage
  tag : Nat
  deriving DecidableEq, Repr

/-- The broker operations the pipeline performs on a delivery:
Ack, Nack with requeue, or Nack without requeue (permanent reject). -/
inductive AckAction where
  | ack (tag : Nat)
  | nackRequeue (tag : Nat)
  | nackDrop (tag : Nat)
  deriving DecidableEq, Repr

/-- The authoritative store plus the in-memory cache, as seen by the
batch processor. -/
structure DBState where
  events : List BalanceEvent
  balances : List StoredBalance
  cache : List (Nat × Int)
  deriving DecidableEq, Repr

/-- Accumulator of the validation/dedup loop inside handleBatch:
the per-user highest-version winners (the deduped map), the event rows to
insert, the event_ids seen in this batch, the delivery tags to ack as
duplicates, and broker operations already performed (permanent rejects). -/
structure BatchAcc where
  deduped : List (Nat × BalanceMessage)
  events : List BalanceEvent
  seen : List String
  toAck : List Nat
  ops : List AckAction
  deriving DecidableEq, Repr

def emptyAcc : BatchAcc := ⟨[], [], [], [], []⟩

/-- The deduped-map update: keep the highest version per user, the first
occurrence winning ties (replacement only on strictly greater version). -/
def dedupInsert (l : List (Nat × BalanceMessage)) (p : BalanceMessage) :
    List (Nat × BalanceMessage) :=
  match l.find? (fun kv => kv.1 = p.userID) with
  | none => l ++ [(p.userID, p)]
  | some kv =>
    if p.version > kv.2.version then
      l.map (fun e => if e.1 = p.userID then (p.userID, p) else e)
    else l

/-- The event row prepared for a surviving message. -/
def mkEvent (p : BalanceMessage) : BalanceEvent :=
  ⟨p.userID, GetAmount p, p.version, GetTimestamp p, p.eventID⟩

/-- One iteration of the validation loop in handleBatch: reject invalid
user_id permanently, ack in-batch duplicate event_ids, ack event_ids
already present in the event log, and otherwise feed the message into the
deduped map and the event-insert list. -/
def batchStep (dbEvents : List BalanceEvent) (acc : BatchAcc)
    (u : IncomingUpdate) : BatchAcc :=
  let p := u.payload
  if p.userID = 0 then
    { acc with ops := acc.ops ++ [AckAction.nackDrop u.tag] }
  else if p.eventID ≠ "" ∧ p.eventID ∈ acc.seen then
    { acc with toAck := acc.toAck ++ [u.tag] }
  else
    let seen1 := if p.eventID ≠ "" then acc.seen ++ [p.eventID] else acc.seen
    if p.eventID ≠ "" ∧ EventExists dbEvents p.eventID then
      { acc with seen := seen1, toAck := acc.toAck ++ [u.tag] }
    else
      { acc with
          seen := seen1
          deduped := dedupInsert acc.deduped p
          events := acc.events ++ [mkEvent p] }

def runBatchAcc (dbEvents : List BalanceEvent) (batch : List IncomingUpdate) :
    BatchAcc :=
  batch.foldl (batchStep dbEvents) emptyAcc

/-- Result of handleBatch: the store/cache state afterwards, whether the
batch succeeded, and the broker operations handleBatch itself performed. -/
structure BatchResult where
  state : DBState
  ok : Bool
  ops : List AckAction
  deriving DecidableEq, Repr

/-- The balance rows built from the deduped map. -/
def dedupedRows (acc : BatchAcc) : List BalanceRow :=
  acc.deduped.map (fun kv => ⟨kv.2.userID, GetAmount kv.2, kv.2.version⟩)

/-- processor.handleBatch: run the validation/dedup loop, ack the collected
duplicates, save the event rows (evOk = false models that insert failing),
upsert the per-user winners (balOk = false models that upsert failing), and
refresh the cache from a re-read of the just-written rows. On a failed save
the error is returned to the caller with the operations already done. -/
def handleBatch (evOk balOk : Bool) (now : Nat) (s : DBState)
    (batch : List IncomingUpdate) : BatchResult :=
  let acc := runBatchAcc s.events batch
  let ops0 := acc.ops ++ acc.toAck.map AckAction.ack
  if acc.events ≠ [] ∧ evOk = false then
    ⟨s, false, ops0⟩
  else
    let events1 := SaveEventsBatch s.events acc.events
    let rows := dedupedRows acc
    if rows ≠ [] ∧ balOk = false then
      ⟨{ s with events := events1 }, false, ops0⟩
    else
      let balances1 := SaveBalancesBatch now s.balances rows
      let ids := rows.map (fun b => b.userID)
      let fresh := GetBalancesByUserIDs balances1 ids
      let cache1 := fresh.foldl (fun c r => cacheStore c r.userID r.amount) s.cache
      ⟨⟨events1, balances1, cache1⟩, true, ops0⟩

/-- The flush closure in ProcessBatches: on handleBatch success ack every
delivery of the batch, on failure nack every delivery with requeue. -/
def flush (evOk balOk : Bool) (now : Nat) (s : DBState)
    (batch : List IncomingUpdate) : DBState × List AckAction :=
  let res := handleBatch evOk balOk now s batch
  if res.ok then
    (res.state, res.ops ++ batch.map (fun u => AckAction.ack u.tag))
  else
    (res.state, res.ops ++ batch.map (fun u => AckAction.nackRequeue u.tag))

/-- A sequence of successful flushes (every repository call succeeding),
one per accumulated batch: the batch partitioning of the message stream. -/
def processBatches (now : Nat) (s : DBState)
    (batches : List (List IncomingUpdate)) : DBState :=
  batches.foldl (fun st b => (flush true true now st b).1) s

/-- Terminal outcome of the worker for one delivery. -/
inductive ProcOutcome where
  | rejectedDrop
  | rejectedRequeue
  | forwarded
  | acked
  deriving DecidableEq, Repr

/-- consumer.processMessage: undecodable payload or zero user_id is nacked
without requeue; a valid message with a negative amount is flagged but
processed; the send into the bounded updates channel either succeeds
(forwarded) or times out (sendOk = false, the accumulator is saturated), in
which case the delivery is nacked with requeue. Returns the outcome and the
negative-amount flag. -/
def processMessage (decoded : Option BalanceMessage) (sendOk : Bool) :
    ProcOutcome × Bool :=
  match decoded with
  | none => (ProcOutcome.rejectedDrop, false)
  | some p =>
    if p.userID = 0 then (ProcOutcome.rejectedDrop, false)
    else
      let flagged := GetAmount p < 0
      if sendOk then (ProcOutcome.forwarded, flagged)
      else (ProcOutcome.rejectedRequeue, flagged)

/-- reconnectDelay of the consumer, in seconds. -/
def reconnectDelaySec : Nat := 5

def maxReconnectAttempts : Nat := 10

/-- Terminal outcome of the reconnect loop: a successful reconnect at some
attempt, or giving up after the bounded attempts (the function logs an
error and returns; no process exit is performed on this path). -/
inductive ReconnectOutcome where
  | reconnected (attempt : Nat)
  | gaveUp
  deriving DecidableEq, Repr

/-- The body of consumer.reconnect: attempts are numbered from 1; each
failed attempt sleeps reconnectDelay * attempt before the next one.
connectOk models whether the dial at a given attempt succeeds. Returns the
outcome and the list of delays slept, in seconds. -/
def reconnectAux (connectOk : Nat → Bool) :
    Nat → Nat → ReconnectOutcome × List Nat
  | _, 0 => (ReconnectOutcome.gaveUp, [])
  | attempt, fuel + 1 =>
    if connectOk attempt then (ReconnectOutcome.reconnected attempt, [])
    else
      let rest := reconnectAux connectOk (attempt + 1) fuel
      (rest.1, reconnectDelaySec * attempt :: rest.2)

def reconnect (connectOk : Nat → Bool) : ReconnectOutcome × List Nat :=
  reconnectAux connectOk 1 maxReconnectAttempts

/-- The per-entity conflict winner: a candidate replaces the current winner
only on strictly greater version (mirrors dedupInsert restricted to a
single entity). -/
def winnerStep (w p : BalanceMessage) : BalanceMessage :=
  if p.version > w.version then p else w

end BalanceApp

namespace BalanceApp.CacheSync

/-- The cache entry of the balance-consumer variant (sync.BalanceCache):
amount, version and a timestamp, modelled abstractly. -/
structure BalanceCache where
  amount : Int
  version : Int
  timestamp : Nat
  deriving DecidableEq, Repr

/-- A row of the point-in-time store scan (database.BalanceData). -/
structure BalanceData where
  userID : Int
  amount : Int
  version : Int
  timestamp : Nat
  deriving DecidableEq, Repr

/-- UpdateCache (sync.Map Store): replace the entry for the key if present,
otherwise insert it. -/
def UpdateCache : List (Int × BalanceCache) → Int → BalanceCache →
    List (Int × BalanceCache)
  | [], k, v => [(k, v)]
  | kv :: rest, k, v =>
    if kv.1 = k then (k, v) :: rest else kv :: UpdateCache rest k v

/-- GetCache (sync.Map Load). -/
def cacheGet : List (Int × BalanceCache) → Int → Option BalanceCache
  | [], _ => none
  | kv :: rest, k => if kv.1 = k then some kv.2 else cacheGet rest k

/-- One iteration of the merge loop in CacheSynchronizer.syncCache, on the
pair (cache, conflict count): a store row for an uncached id is stored; a
store row with a strictly greater version overwrites the cache; a store row
with a strictly lower version only increments the logged conflict count;
equal versions change nothing. -/
def syncStep (st : List (Int × BalanceCache) × Nat) (d : BalanceData) :
    List (Int × BalanceCache) × Nat :=
  match cacheGet st.1 d.userID with
  | none => (UpdateCache st.1 d.userID ⟨d.amount, d.version, d.timestamp⟩, st.2)
  | some cached =>
    if d.version > cached.version then
      (UpdateCache st.1 d.userID ⟨d.amount, d.version, d.timestamp⟩, st.2)
    else if d.version < cached.version then
      (st.1, st.2 + 1)
    else st

/-- CacheSynchronizer.syncCache: merge one point-in-time scan of the store
into the cache, returning the new cache and the conflict count. -/
def syncCache (c : List (Int × BalanceCache)) (db : List BalanceData) :
    List (Int × BalanceCache) × Nat :=
  db.foldl syncStep (c, 0)

end BalanceApp.CacheSync

namespace BalanceApp

theorem balLookup_userID : ∀ {t : List StoredBalance} {u : Nat} {r : StoredBalance},
    balLookup t u = some r → r.userID = u := by
  intro t
  induction t with
  | nil => intro u r h; simp [balLookup] at h
  | cons a rest ih =>
    intro u r h
    by_cases ha : a.userID = u
    · simp [balLookup, ha] at h
      rw [← h]
      exact ha
    · simp [balLookup, ha] at h
      exact ih h

theorem balLookup_upsertRow_other (now : Nat) (b : BalanceRow) (u : Nat)
    (hne : u ≠ b.userID) :
    ∀ t : List StoredBalance, balLookup (upsertRow now b t) u = balLookup t u := by
  intro t
  induction t with
  | nil =>
    have hbu : ¬ (b.userID = u) := fun h => hne (Eq.symm h)
    simp [upsertRow, balLookup, hbu]
  | cons r rest ih =>
    by_cases hr : r.userID = b.userID
    · have hbu : ¬ (b.userID = u) := fun h => hne (Eq.symm h)
      have hru : ¬ (r.userID = u) := fun h => hne (Eq.symm (hr ▸ h))
      simp [upsertRow, hr, balLookup, hbu, hru]
    · simp [upsertRow, hr, balLookup, ih]

theorem balLookup_upsertRow_self_none (now : Nat) (b : BalanceRow) :
    ∀ t : List StoredBalance, balLookup t b.userID = none →
    balLookup (upsertRow now b t) b.userID =
      some ⟨b.userID, b.amount, b.version, now⟩ := by
  intro t
  induction t with
  | nil => intro _; simp [upsertRow, balLookup]
  | cons a rest ih =>
    intro h
    by_cases ha : a.userID = b.userID
    · simp [balLookup, ha] at h
    · simp [balLookup, ha] at h
      simp [upsertRow, ha, balLookup, ih h]

theorem balLookup_upsertRow_self_some (now : Nat) (b : BalanceRow)
    (r : StoredBalance) :
    ∀ t : List StoredBalance, balLookup t b.userID = some r →
    balLookup (upsertRow now b t) b.userID =
      some ⟨b.userID,
        if r.version ≤ b.version then b.amount else r.amount,
        max r.version b.version, now⟩ := by
  intro t
  induction t with
  | nil => intro h; simp [balLookup] at h
  | cons a rest ih =>
    intro h
    by_cases ha : a.userID = b.userID
    · simp [balLookup, ha] at h
      rw [← h]
      simp [upsertRow, ha, balLookup]
    · simp [balLookup, ha] at h
      simp [upsertRow, ha, balLookup, ih h]

theorem saveBatch_cons (now : Nat) (t : List StoredBalance) (b : BalanceRow)
    (rest : List BalanceRow) :
    SaveBalancesBatch now t (b :: rest) =
      SaveBalancesBatch now (upsertRow now b t) rest := rfl

theorem balLookup_saveBatch_notmem (now : Nat) (u : Nat) :
    ∀ (bs : List BalanceRow) (t : List StoredBalance),
    (∀ b ∈ bs, u ≠ b.userID) →
    balLookup (SaveBalancesBatch now t bs) u = balLookup t u := by
  intro bs
  induction bs with
  | nil => intro t _; rfl
  | cons b rest ih =>
    intro t h
    rw [saveBatch_cons, ih _ (fun x hx => h x (List.mem_cons_of_mem _ hx)),
      balLookup_upsertRow_other now b u (h b (List.mem_cons_self _ _))]

theorem balLookup_saveBatch_mem (now : Nat) :
    ∀ (bs : List BalanceRow) (t : List StoredBalance) (b : BalanceRow)
    (r : StoredBalance),
    (bs.map (fun x => x.userID)).Nodup → b ∈ bs →
    balLookup t b.userID = some r →
    balLookup (SaveBalancesBatch now t bs) b.userID =
      some ⟨b.userID,
        if r.version ≤ b.version then b.amount else r.amount,
        if r.version ≤ b.version then b.version else r.version,
        now⟩ := by
  intro bs
  induction bs with
  | nil => intro t b r _ hb _; cases hb
  | cons a rest ih =>
    intro t b r hnodup hb hr
    have hnotin : a.userID ∉ rest.map (fun x => x.userID) :=
      (List.nodup_cons.mp hnodup).1
    rcases List.mem_cons.mp hb with hba | hbr
    · rw [hba] at hr
      rw [hba, saveBatch_cons]
      have hself := balLookup_upsertRow_self_some now a r t hr
      have hrest : ∀ x ∈ rest, a.userID ≠ x.userID := by
        intro x hx hcontra
        exact hnotin (hcontra ▸ List.mem_map_of_mem (fun y => y.userID) hx)
      rw [balLookup_saveBatch_notmem now a.userID rest _ hrest, hself]
      by_cases hv : r.version ≤ a.version
      · simp [hv, Nat.max_eq_right hv]
      · simp [hv, Nat.max_eq_left (Nat.le_of_lt (Nat.lt_of_not_le hv))]
    · have hne : b.userID ≠ a.userID := by
        intro hcontra
        exact hnotin (hcontra ▸ List.mem_map_of_mem (fun y => y.userID) hbr)
      rw [saveBatch_cons]
      have h2 : balLookup (upsertRow now a t) b.userID = some r :=
        (balLookup_upsertRow_other now a b.userID hne t).trans hr
      exact ih (upsertRow now a t) b r (List.nodup_cons.mp hnodup).2 hbr h2

/-- C1 (counterexample): with a stored row (user 7, amount 10, version 5,
updated_at 0), upserting an incoming update (amount 99, version 3) whose
version is strictly lower leaves the row changed: the claim says the
existing stored row is left untouched, but updated_at is set to the write
time, so the stored row after the write differs from the stored row
before it. -/
theorem claim1_row_untouched_cex :
    balLookup (SaveBalancesBatch 1 [⟨7, 10, 5, 0⟩] [⟨7, 99, 3⟩]) 7 ≠
      some ⟨7, 10, 5, 0⟩ ∧
    balLookup (SaveBalancesBatch 1 [⟨7, 10, 5, 0⟩] [⟨7, 99, 3⟩]) 7 =
      some ⟨7, 10, 5, 1⟩ := by
  decide

/-- C1 (amended): for every batch upsert into BalanceState with pairwise
distinct entity ids, for each entity in the batch the incoming
(amount, version) is applied exactly when the incoming version is
greater than or equal to the stored version (the weaker historical
variant implemented by the code); otherwise the stored amount and version
are left unchanged — but updated_at is refreshed to the write time in
both cases. -/
theorem claim1_version_guard (now : Nat) (bs : List BalanceRow)
    (t : List StoredBalance) (b : BalanceRow) (r : StoredBalance)
    (hnodup : (bs.map (fun x => x.userID)).Nodup) (hb : b ∈ bs)
    (hr : balLookup t b.userID = some r) :
    balLookup (SaveBalancesBatch now t bs) b.userID =
      some ⟨b.userID,
        if r.version ≤ b.version then b.amount else r.amount,
        if r.version ≤ b.version then b.version else r.version,
        now⟩ :=
  balLookup_saveBatch_mem now bs t b r hnodup hb hr

theorem claim1_version_guard_witness :
    balLookup (SaveBalancesBatch 1 [⟨7, 10, 5, 0⟩] [⟨7, 99, 6⟩, ⟨8, 1, 1⟩]) 7 =
      some ⟨7, 99, 6, 1⟩ := by
  have h := claim1_version_guard 1 [⟨7, 99, 6⟩, ⟨8, 1, 1⟩] [⟨7, 10, 5, 0⟩]
    ⟨7, 99, 6⟩ ⟨7, 10, 5, 0⟩ (by decide) (by decide) (by decide)
  simpa using h

/-- C10: when a batch upsert meets a stored row whose version is strictly
greater than the incoming version, the stored amount and version are
unchanged but the row is still touched: its updated_at column is set to
the time of the write. -/
theorem claim10_rejected_update_touches_row (now : Nat) (bs : List BalanceRow)
    (t : List StoredBalance) (b : BalanceRow) (r : StoredBalance)
    (hnodup : (bs.map (fun x => x.userID)).Nodup) (hb : b ∈ bs)
    (hr : balLookup t b.userID = some r) (hlt : b.version < r.version) :
    balLookup (SaveBalancesBatch now t bs) b.userID =
      some ⟨b.userID, r.amount, r.version, now⟩ := by
  have h := balLookup_saveBatch_mem now bs t b r hnodup hb hr
  rw [if_neg (Nat.not_le_of_lt hlt), if_neg (Nat.not_le_of_lt hlt)] at h
  exact h

theorem claim10_rejected_update_touches_row_witness :
    balLookup (SaveBalancesBatch 1 [⟨7, 10, 5, 0⟩] [⟨7, 99, 3⟩]) 7 =
      some ⟨7, 10, 5, 1⟩ ∧
    some (StoredBalance.mk 7 10 5 1) ≠ some ⟨7, 10, 5, 0⟩ := by
  constructor
  · exact claim10_rejected_update_touches_row 1 [⟨7, 99, 3⟩] [⟨7, 10, 5, 0⟩]
      ⟨7, 99, 3⟩ ⟨7, 10, 5, 0⟩ (by decide) (by decide) (by decide) (by decide)
  · decide

/-- C5: the stored version for an entity never decreases across successful
writes: after any bulk upsert, the row for an entity that already had a
stored row still exists and its version is at least the old one. -/
theorem claim5_version_monotone (now : Nat) (bs : List BalanceRow) :
    ∀ (t : List StoredBalance) (u : Nat) (r : StoredBalance),
    balLookup t u = some r →
    ∃ r2, balLookup (SaveBalancesBatch now t bs) u = some r2 ∧
      r.version ≤ r2.version := by
  induction bs with
  | nil => intro t u r h; exact ⟨r, h, Nat.le_refl _⟩
  | cons b rest ih =>
    intro t u r h
    by_cases hb : u = b.userID
    · have h2 := balLookup_upsertRow_self_some now b r t (hb ▸ h)
      obtain ⟨r2, hr2, hle⟩ := ih (upsertRow now b t) u _ (hb ▸ h2)
      exact ⟨r2, by rw [saveBatch_cons]; exact hr2,
        Nat.le_trans (Nat.le_max_left _ _) hle⟩
    · have h2 : balLookup (upsertRow now b t) u = some r :=
        (balLookup_upsertRow_other now b u hb t).trans h
      obtain ⟨r2, hr2, hle⟩ := ih (upsertRow now b t) u r h2
      exact ⟨r2, by rw [saveBatch_cons]; exact hr2, hle⟩

theorem claim5_version_monotone_witness :
    ∃ r2, balLookup (SaveBalancesBatch 1 [⟨7, 10, 5, 0⟩] [⟨7, 99, 3⟩]) 7 =
      some r2 ∧ 5 ≤ r2.version :=
  claim5_version_monotone 1 [⟨7, 99, 3⟩] [⟨7, 10, 5, 0⟩] 7 ⟨7, 10, 5, 0⟩
    (by decide)

/-- C9: field aliasing in the decoded wire message — the effective amount
is new_amount when it is non-zero and amount otherwise, and the effective
timestamp string is updated_at when it is non-empty and timestamp
otherwise. -/
theorem claim9_field_aliasing (m : BalanceMessage) :
    (m.newAmount ≠ 0 → GetAmount m = m.newAmount) ∧
    (m.newAmount = 0 → GetAmount m = m.amount) ∧
    (m.updatedAt ≠ "" → GetTimestamp m = m.updatedAt) ∧
    (m.updatedAt = "" → GetTimestamp m = m.timestamp) := by
  refine ⟨fun h => ?_, fun h => ?_, fun h => ?_, fun h => ?_⟩ <;>
    simp [GetAmount, GetTimestamp, h]

theorem claim9_field_aliasing_witness :
    GetAmount ⟨1, 50, 7, 3, "ts", "ua", "e"⟩ = 50 ∧
    GetAmount ⟨1, 0, 7, 3, "ts", "ua", "e"⟩ = 7 ∧
    GetTimestamp ⟨1, 50, 7, 3, "ts", "ua", "e"⟩ = "ua" ∧
    GetTimestamp ⟨1, 50, 7, 3, "ts", "", "e"⟩ = "ts" :=
  ⟨(claim9_field_aliasing _).1 (by decide),
   (claim9_field_aliasing _).2.1 rfl,
   (claim9_field_aliasing _).2.2.1 (by decide),
   (claim9_field_aliasing _).2.2.2 rfl⟩

/-- C7: a validly decoded delivery whose send into the accumulator channel
times out (channel saturated) is nacked with requeue: it is neither
acknowledged nor permanently dropped. -/
theorem claim7_backpressure_requeue (p : BalanceMessage) (h : p.userID ≠ 0) :
    (processMessage (some p) false).1 = ProcOutcome.rejectedRequeue ∧
    (processMessage (some p) false).1 ≠ ProcOutcome.acked ∧
    (processMessage (some p) false).1 ≠ ProcOutcome.rejectedDrop := by
  simp [processMessage, h]

theorem claim7_backpressure_requeue_witness :
    (processMessage (some ⟨7, 50, 0, 3, "", "", "e"⟩) false).1 =
      ProcOutcome.rejectedRequeue ∧
    (processMessage (some ⟨7, 50, 0, 3, "", "", "e"⟩) false).1 ≠
      ProcOutcome.acked ∧
    (processMessage (some ⟨7, 50, 0, 3, "", "", "e"⟩) false).1 ≠
      ProcOutcome.rejectedDrop :=
  claim7_backpressure_requeue ⟨7, 50, 0, 3, "", "", "e"⟩ (by decide)

/-- C8: when the dial fails at every attempt, the reconnect loop performs
exactly maxReconnectAttempts attempts with linearly increasing delays
(5s, 10s, ..., 50s) and then terminates in the gaveUp outcome — the code
path that merely logs an error and returns, leaving the process running
without a consumer, instead of the fatal termination the specification
requires. -/
theorem claim8_reconnect_gives_up :
    reconnect (fun _ => false) =
      (ReconnectOutcome.gaveUp, [5, 10, 15, 20, 25, 30, 35, 40, 45, 50]) := by
  rfl

end BalanceApp

namespace BalanceApp.CacheSync

theorem cacheGet_UpdateCache_other (k id : Int) (hne : k ≠ id)
    (v : BalanceCache) :
    ∀ c, cacheGet (UpdateCache c k v) id = cacheGet c id := by
  intro c
  induction c with
  | nil =>
    have h : ¬ (k = id) := hne
    simp [UpdateCache, cacheGet, h]
  | cons kv rest ih =>
    by_cases hk : kv.1 = k
    · have h : ¬ (k = id) := hne
      have h2 : ¬ (kv.1 = id) := fun hcontra => hne (hk ▸ hcontra)
      simp [UpdateCache, cacheGet, hk, h, h2]
    · simp [UpdateCache, cacheGet, hk, ih]

theorem syncFold_preserves_fresh (id : Int) (cached : BalanceCache) :
    ∀ (db : List BalanceData) (st : List (Int × BalanceCache) × Nat),
    cacheGet st.1 id = some cached →
    (∀ d ∈ db, d.userID = id → d.version < cached.version) →
    cacheGet (db.foldl syncStep st).1 id = some cached := by
  intro db
  induction db with
  | nil => intro st h _; exact h
  | cons d rest ih =>
    intro st h hall
    have hstep : cacheGet (syncStep st d).1 id = some cached := by
      by_cases hd : d.userID = id
      · have hv : d.version < cached.version := hall d (List.mem_cons_self _ _) hd
        have hc : cacheGet st.1 d.userID = some cached := hd ▸ h
        simp [syncStep, hc, not_lt_of_gt hv, hv, h]
      · cases hc : cacheGet st.1 d.userID with
        | none =>
          simp only [syncStep, hc]
          exact (cacheGet_UpdateCache_other d.userID id hd _ st.1).trans h
        | some q =>
          simp only [syncStep, hc]
          by_cases h1 : d.version > q.version
          · simp only [if_pos h1]
            exact (cacheGet_UpdateCache_other d.userID id hd _ st.1).trans h
          · by_cases h2 : d.version < q.version
            · simp [h1, h2, h]
            · simp [h1, h2, h]
    exact ih _ hstep (fun x hx => hall x (List.mem_cons_of_mem _ hx))

/-- C4: if the cache holds a version strictly greater than every version
the synchronizer pass observes in the store for that id, the cache entry
after the pass is unchanged — the stale store row is counted as a conflict
and never written into the cache. -/
theorem claim4_no_stale_overwrite (c : List (Int × BalanceCache))
    (db : List BalanceData) (id : Int) (cached : BalanceCache)
    (hc : cacheGet c id = some cached)
    (hall : ∀ d ∈ db, d.userID = id → d.version < cached.version) :
    cacheGet (syncCache c db).1 id = some cached :=
  syncFold_preserves_fresh id cached db (c, 0) hc hall

theorem claim4_no_stale_overwrite_witness :
    cacheGet
      (syncCache [(7, ⟨100, 5, 0⟩)] [⟨7, 50, 3, 0⟩, ⟨8, 10, 1, 0⟩]).1 7 =
      some ⟨100, 5, 0⟩ :=
  claim4_no_stale_overwrite [(7, ⟨100, 5, 0⟩)] [⟨7, 50, 3, 0⟩, ⟨8, 10, 1, 0⟩]
    7 ⟨100, 5, 0⟩ (by decide) (by decide)

end BalanceApp.CacheSync

namespace BalanceApp

theorem getByIds_nil : ∀ t : List StoredBalance, GetBalancesByUserIDs t [] = []
  | [] => rfl
  | _ :: rest => getByIds_nil rest

theorem runBatch_dup_fold (db : List BalanceEvent) (m : BalanceMessage)
    (hne : m.eventID ≠ "") (hu : m.userID ≠ 0) :
    ∀ (batch : List IncomingUpdate) (acc : BatchAcc),
    (∀ x ∈ batch, x.payload = m) → m.eventID ∈ acc.seen →
    List.foldl (batchStep db) acc batch =
      { acc with toAck := acc.toAck ++ batch.map (fun x => x.tag) } := by
  intro batch
  induction batch with
  | nil => intro acc _ _; simp
  | cons x rest ih =>
    intro acc hall hseen
    have hx : x.payload = m := hall x (List.mem_cons_self _ _)
    have hstep : batchStep db acc x = { acc with toAck := acc.toAck ++ [x.tag] } := by
      simp [batchStep, hx, hu, hne, hseen]
    rw [List.foldl_cons, hstep,
      ih { acc with toAck := acc.toAck ++ [x.tag] }
        (fun y hy => hall y (List.mem_cons_of_mem _ hy)) hseen]
    simp

/-- Replay protection at the pipeline level: a message with a non-empty
event_id already present in the event log is skipped by every later batch,
however many copies of it the batch contains — the batch succeeds, every
copy is simply acknowledged, and the store and cache are unchanged. (This
is the application-level guard; the repository-level insert offers no such
protection, see claim3_duplicate_insert_not_noop.) -/
theorem handleBatch_replay_acked (evOk balOk : Bool) (now : Nat) (s : DBState)
    (m : BalanceMessage) (batch : List IncomingUpdate)
    (hu : m.userID ≠ 0) (hne : m.eventID ≠ "")
    (hex : EventExists s.events m.eventID = true)
    (hall : ∀ x ∈ batch, x.payload = m) :
    handleBatch evOk balOk now s batch =
      ⟨s, true, batch.map (fun x => AckAction.ack x.tag)⟩ := by
  cases batch with
  | nil =>
    simp [handleBatch, runBatchAcc, emptyAcc, dedupedRows, SaveEventsBatch,
      SaveBalancesBatch, getByIds_nil]
  | cons x rest =>
    have hx : x.payload = m := hall x (List.mem_cons_self _ _)
    have hstep0 : batchStep s.events emptyAcc x =
        ⟨[], [], [m.eventID], [x.tag], []⟩ := by
      simp [batchStep, hx, hu, hne, hex, emptyAcc]
    have hfold := runBatch_dup_fold s.events m hne hu rest
      ⟨[], [], [m.eventID], [x.tag], []⟩
      (fun y hy => hall y (List.mem_cons_of_mem _ hy))
      (List.mem_cons_self _ _)
    have hacc : runBatchAcc s.events (x :: rest) =
        ⟨[], [], [m.eventID], x.tag :: rest.map (fun y => y.tag), []⟩ := by
      rw [runBatchAcc, List.foldl_cons, hstep0, hfold]
      rfl
    simp [handleBatch, hacc, dedupedRows, SaveEventsBatch, SaveBalancesBatch,
      getByIds_nil, List.map_map, Function.comp]

/-- C3: re-inserting an event row whose event_id is already present in
balance_events is not a no-op — the table has no unique index on event_id
(only the non-unique idx_event_id from the AutoMigrated model), so the
insert adds a second row and the event log then holds two rows for that
event_id instead of exactly one. -/
theorem claim3_duplicate_insert_not_noop :
    SaveEventsBatch [⟨7, 100, 4, "t", "e1"⟩] [⟨7, 100, 4, "t", "e1"⟩] =
      [⟨7, 100, 4, "t", "e1"⟩, ⟨7, 100, 4, "t", "e1"⟩] ∧
    ((SaveEventsBatch [⟨7, 100, 4, "t", "e1"⟩]
        [⟨7, 100, 4, "t", "e1"⟩]).filter (fun e => e.eventID = "e1")).length
      = 2 := by
  decide

/-- C6 (counterexample): a batch containing a fresh message (tag 1) and a
message whose event_id is already in the event log (tag 2), processed while
the event insert fails: handleBatch acknowledges tag 2 as a duplicate
before the failure, and the failing flush then nacks every delivery of the
batch with requeue — so the delivery with tag 2 is both acknowledged and
nacked, contradicting the claim that no delivery in a failed batch is
acknowledged. -/
theorem claim6_both_acked_and_nacked_cex :
    (handleBatch false true 0
        ⟨[⟨1, 5, 1, "t0", "e1"⟩], [], []⟩
        [⟨⟨1, 50, 0, 2, "", "", "e2"⟩, 1⟩, ⟨⟨1, 60, 0, 3, "", "", "e1"⟩, 2⟩]).ok
      = false ∧
    AckAction.ack 2 ∈ (flush false true 0
        ⟨[⟨1, 5, 1, "t0", "e1"⟩], [], []⟩
        [⟨⟨1, 50, 0, 2, "", "", "e2"⟩, 1⟩, ⟨⟨1, 60, 0, 3, "", "", "e1"⟩, 2⟩]).2 ∧
    AckAction.nackRequeue 2 ∈ (flush false true 0
        ⟨[⟨1, 5, 1, "t0", "e1"⟩], [], []⟩
        [⟨⟨1, 50, 0, 2, "", "", "e2"⟩, 1⟩, ⟨⟨1, 60, 0, 3, "", "", "e1"⟩, 2⟩]).2 := by
  decide

/-- C6 (amended): for every batch whose flush fails, every delivery in the
batch is rejected with redelivery requested; however, deliveries
recognized during batch assembly as duplicates (or as invalid) have
already received an ack (or a permanent reject) before the failure, so
such a delivery can receive both an ack and a nack. -/
theorem claim6_failed_flush_nacks_all (evOk balOk : Bool) (now : Nat)
    (s : DBState) (batch : List IncomingUpdate) (x : IncomingUpdate)
    (hfail : (handleBatch evOk balOk now s batch).ok = false)
    (hx : x ∈ batch) :
    AckAction.nackRequeue x.tag ∈ (flush evOk balOk now s batch).2 := by
  have h : (flush evOk balOk now s batch).2 =
      (handleBatch evOk balOk now s batch).ops ++
        batch.map (fun u => AckAction.nackRequeue u.tag) := by
    simp [flush, hfail]
  rw [h]
  exact List.mem_append_right _ (List.mem_map_of_mem _ hx)

theorem claim6_failed_flush_nacks_all_witness :
    AckAction.nackRequeue 1 ∈ (flush false true 0
        ⟨[⟨1, 5, 1, "t0", "e1"⟩], [], []⟩
        [⟨⟨1, 50, 0, 2, "", "", "e2"⟩, 1⟩, ⟨⟨1, 60, 0, 3, "", "", "e1"⟩, 2⟩]).2 :=
  claim6_failed_flush_nacks_all false true 0
    ⟨[⟨1, 5, 1, "t0", "e1"⟩], [], []⟩
    [⟨⟨1, 50, 0, 2, "", "", "e2"⟩, 1⟩, ⟨⟨1, 60, 0, 3, "", "", "e1"⟩, 2⟩]
    ⟨⟨1, 50, 0, 2, "", "", "e2"⟩, 1⟩ (by decide) (by decide)

end BalanceApp

namespace BalanceApp

theorem winnerFold_mem : ∀ (l : List BalanceMessage) (q : BalanceMessage),
    List.foldl winnerStep q l ∈ q :: l := by
  intro l
  induction l with
  | nil => intro q; simp
  | cons p rest ih =>
    intro q
    rw [List.foldl_cons]
    rcases List.mem_cons.mp (ih (winnerStep q p)) with h1 | h1
    · rw [h1]
      unfold winnerStep
      by_cases hv : p.version > q.version
      · simp [hv]
      · simp [hv]
    · exact List.mem_cons_of_mem _ (List.mem_cons_of_mem _ h1)

theorem winnerStep_left (q p : BalanceMessage) :
    q.version ≤ (winnerStep q p).version := by
  unfold winnerStep
  by_cases hv : p.version > q.version
  · simp [hv]
    exact Nat.le_of_lt hv
  · simp [hv]

theorem winnerStep_right (q p : BalanceMessage) :
    p.version ≤ (winnerStep q p).version := by
  unfold winnerStep
  by_cases hv : p.version > q.version
  · simp [hv]
  · simp [hv]
    exact Nat.le_of_not_lt hv

theorem winnerFold_max : ∀ (l : List BalanceMessage) (q x : BalanceMessage),
    x ∈ q :: l → x.version ≤ (List.foldl winnerStep q l).version := by
  intro l
  induction l with
  | nil =>
    intro q x hx
    rcases List.mem_cons.mp hx with h | h
    · rw [h]; simp
    · cases h
  | cons p rest ih =>
    intro q x hx
    rw [List.foldl_cons]
    rcases List.mem_cons.mp hx with h | h
    · rw [h]
      exact Nat.le_trans (winnerStep_left q p)
        (ih (winnerStep q p) _ (List.mem_cons_self _ _))
    · rcases List.mem_cons.mp h with h2 | h2
      · rw [h2]
        exact Nat.le_trans (winnerStep_right q p)
          (ih (winnerStep q p) _ (List.mem_cons_self _ _))
      · exact ih (winnerStep q p) x (List.mem_cons_of_mem _ h2)

theorem dedupInsert_nil (p : BalanceMessage) :
    dedupInsert [] p = [(p.userID, p)] := rfl

theorem dedupFold_single (u : Nat) :
    ∀ (l : List BalanceMessage) (q : BalanceMessage),
    q.userID = u → (∀ p ∈ l, p.userID = u) →
    List.foldl dedupInsert [(u, q)] l = [(u, List.foldl winnerStep q l)] := by
  intro l
  induction l with
  | nil => intro q _ _; rfl
  | cons p rest ih =>
    intro q hq hall
    have hp : p.userID = u := hall p (List.mem_cons_self _ _)
    have hfind : List.find? (fun kv => kv.1 = p.userID) [(u, q)] = some (u, q) := by
      simp [List.find?, hp]
    have hstep : dedupInsert [(u, q)] p = [(u, winnerStep q p)] := by
      unfold dedupInsert winnerStep
      rw [hfind]
      by_cases hv : p.version > q.version
      · simp [hv, hp]
      · simp [hv]
    have hw : (winnerStep q p).userID = u := by
      unfold winnerStep
      by_cases hv : p.version > q.version
      · simp [hv, hp]
      · simp [hv, hq]
    rw [List.foldl_cons, hstep, List.foldl_cons,
      ih (winnerStep q p) hw (fun y hy => hall y (List.mem_cons_of_mem _ hy))]

theorem runBatch_deduped_valid (db : List BalanceEvent) :
    ∀ (batch : List IncomingUpdate) (acc : BatchAcc),
    (∀ x ∈ batch, x.payload.userID ≠ 0 ∧ x.payload.eventID = "") →
    (List.foldl (batchStep db) acc batch).deduped =
      List.foldl dedupInsert acc.deduped (batch.map (fun x => x.payload)) := by
  intro batch
  induction batch with
  | nil => intro acc _; rfl
  | cons x rest ih =>
    intro acc hall
    obtain ⟨hu, he⟩ := hall x (List.mem_cons_self _ _)
    have hstep : batchStep db acc x =
        { acc with
            deduped := dedupInsert acc.deduped x.payload,
            events := acc.events ++ [mkEvent x.payload] } := by
      simp [batchStep, hu, he]
    rw [List.map_cons, List.foldl_cons, List.foldl_cons, hstep,
      ih { acc with
            deduped := dedupInsert acc.deduped x.payload,
            events := acc.events ++ [mkEvent x.payload] }
        (fun y hy => hall y (List.mem_cons_of_mem _ hy))]

theorem handleBatch_ok (now : Nat) (s : DBState) (batch : List IncomingUpdate) :
    (handleBatch true true now s batch).state.balances =
      SaveBalancesBatch now s.balances (dedupedRows (runBatchAcc s.events batch)) ∧
    (handleBatch true true now s batch).ok = true := by
  constructor <;> simp [handleBatch]

theorem flush_state (evOk balOk : Bool) (now : Nat) (s : DBState)
    (batch : List IncomingUpdate) :
    (flush evOk balOk now s batch).1 = (handleBatch evOk balOk now s batch).state := by
  by_cases h : (handleBatch evOk balOk now s batch).ok <;> simp [flush, h]

theorem processBatches_cons (now : Nat) (s : DBState) (b : List IncomingUpdate)
    (rest : List (List IncomingUpdate)) :
    processBatches now s (b :: rest) =
      processBatches now (flush true true now s b).1 rest := rfl

theorem flush_lookup_batch (now : Nat) (u : Nat) (s : DBState)
    (x : IncomingUpdate) (xs : List IncomingUpdate)
    (hall : ∀ y ∈ x :: xs, y.payload.userID = u ∧ y.payload.eventID = "")
    (hu : u ≠ 0) :
    ∃ wb : BalanceMessage,
      wb ∈ (x :: xs).map (fun y => y.payload) ∧
      (∀ p ∈ (x :: xs).map (fun y => y.payload), p.version ≤ wb.version) ∧
      (flush true true now s (x :: xs)).1.balances =
        upsertRow now ⟨u, GetAmount wb, wb.version⟩ s.balances := by
  have hmapu : ∀ p ∈ (x :: xs).map (fun y => y.payload), p.userID = u := by
    intro p hp
    obtain ⟨y, hy, hyp⟩ := List.mem_map.mp hp
    rw [← hyp]
    exact (hall y hy).1
  refine ⟨List.foldl winnerStep x.payload (xs.map (fun y => y.payload)), ?_, ?_, ?_⟩
  · rw [List.map_cons]
    exact winnerFold_mem _ _
  · intro p hp
    rw [List.map_cons] at hp
    exact winnerFold_max _ _ _ hp
  · rw [flush_state, (handleBatch_ok now s (x :: xs)).1]
    have hvalid : ∀ y ∈ x :: xs, y.payload.userID ≠ 0 ∧ y.payload.eventID = "" := by
      intro y hy
      exact ⟨(hall y hy).1 ▸ hu, (hall y hy).2⟩
    have hded : (runBatchAcc s.events (x :: xs)).deduped =
        List.foldl dedupInsert [] ((x :: xs).map (fun y => y.payload)) :=
      runBatch_deduped_valid s.events (x :: xs) emptyAcc hvalid
    have hxu : x.payload.userID = u := (hall x (List.mem_cons_self _ _)).1
    have hded2 : (runBatchAcc s.events (x :: xs)).deduped =
        [(u, List.foldl winnerStep x.payload (xs.map (fun y => y.payload)))] := by
      rw [hded, List.map_cons, List.foldl_cons, dedupInsert_nil, hxu]
      exact dedupFold_single u (xs.map (fun y => y.payload)) x.payload hxu
        (fun p hp => hmapu p (by rw [List.map_cons]; exact List.mem_cons_of_mem _ hp))
    have hwu : (List.foldl winnerStep x.payload (xs.map (fun y => y.payload))).userID = u :=
      hmapu _ (by rw [List.map_cons]; exact winnerFold_mem _ _)
    rw [dedupedRows, hded2, List.map_cons]
    simp only [List.map_nil]
    rw [hwu]
    rfl

end BalanceApp

namespace BalanceApp

theorem processBatches_row_some (now : Nat) (u : Nat) (hu : u ≠ 0) :
    ∀ (batches : List (List IncomingUpdate)) (s : DBState) (r0 : StoredBalance),
    (∀ x ∈ batches.flatten, x.payload.userID = u ∧ x.payload.eventID = "") →
    balLookup s.balances u = some r0 →
    ∃ r, balLookup (processBatches now s batches).balances u = some r ∧
      ((r.version = r0.version ∧ r.amount = r0.amount) ∨
        (∃ x ∈ batches.flatten, r.version = x.payload.version ∧
          r.amount = GetAmount x.payload)) ∧
      r0.version ≤ r.version ∧
      (∀ x ∈ batches.flatten, x.payload.version ≤ r.version) := by
  intro batches
  induction batches with
  | nil =>
    intro s r0 _ h0
    exact ⟨r0, h0, Or.inl ⟨rfl, rfl⟩, Nat.le_refl _, by simp⟩
  | cons b rest ih =>
    intro s r0 hall h0
    have hallrest : ∀ x ∈ rest.flatten, x.payload.userID = u ∧ x.payload.eventID = "" := by
      intro x hx
      exact hall x (by rw [List.flatten_cons]; exact List.mem_append_right _ hx)
    cases b with
    | nil =>
      have hbal : (flush true true now s []).1.balances = s.balances := by
        rw [flush_state, (handleBatch_ok now s []).1]
        rfl
      rw [processBatches_cons]
      obtain ⟨r, hr, hdisj, hle, hbound⟩ :=
        ih (flush true true now s []).1 r0 hallrest (hbal ▸ h0)
      refine ⟨r, hr, ?_, hle, ?_⟩
      · rcases hdisj with h | ⟨x, hx, hxx⟩
        · exact Or.inl h
        · exact Or.inr ⟨x, by rw [List.flatten_cons]; exact List.mem_append_right _ hx, hxx⟩
      · intro x hx
        rw [List.flatten_cons] at hx
        rcases List.mem_append.mp hx with h | h
        · cases h
        · exact hbound x h
    | cons y ys =>
      have hallb : ∀ z ∈ y :: ys, z.payload.userID = u ∧ z.payload.eventID = "" := by
        intro z hz
        exact hall z (by rw [List.flatten_cons]; exact List.mem_append_left _ hz)
      obtain ⟨wb, hwmem, hwmax, hbal⟩ := flush_lookup_batch now u s y ys hallb hu
      have hr1 := balLookup_upsertRow_self_some now ⟨u, GetAmount wb, wb.version⟩
        r0 s.balances h0
      rw [processBatches_cons]
      obtain ⟨r, hr, hdisj, hle, hbound⟩ :=
        ih (flush true true now s (y :: ys)).1
          ⟨u, if r0.version ≤ wb.version then GetAmount wb else r0.amount,
            max r0.version wb.version, now⟩
          hallrest (by rw [hbal]; exact hr1)
      refine ⟨r, hr, ?_, ?_, ?_⟩
      · rcases hdisj with ⟨hv, ha⟩ | ⟨x, hx, hxx⟩
        · by_cases hcase : r0.version ≤ wb.version
          · obtain ⟨z, hz, hzp⟩ := List.mem_map.mp hwmem
            refine Or.inr ⟨z, ?_, ?_, ?_⟩
            · rw [List.flatten_cons]
              exact List.mem_append_left _ hz
            · rw [hv, hzp]
              simp [Nat.max_eq_right hcase]
            · rw [ha, hzp]
              simp [hcase]
          · have hwle : wb.version ≤ r0.version :=
              Nat.le_of_lt (Nat.lt_of_not_le hcase)
            refine Or.inl ⟨?_, ?_⟩
            · rw [hv]
              simp [Nat.max_eq_left hwle]
            · rw [ha]
              simp [hcase]
        · exact Or.inr ⟨x,
            by rw [List.flatten_cons]; exact List.mem_append_right _ hx, hxx⟩
      · exact Nat.le_trans (Nat.le_max_left _ _) hle
      · intro x hx
        rw [List.flatten_cons] at hx
        rcases List.mem_append.mp hx with h | h
        · have hpx : x.payload ∈ (y :: ys).map (fun z => z.payload) :=
            List.mem_map_of_mem _ h
          exact Nat.le_trans (hwmax _ hpx)
            (Nat.le_trans (Nat.le_max_right _ _) hle)
        · exact hbound x h

theorem processBatches_row_none (now : Nat) (u : Nat) (hu : u ≠ 0) :
    ∀ (batches : List (List IncomingUpdate)) (s : DBState),
    (∀ x ∈ batches.flatten, x.payload.userID = u ∧ x.payload.eventID = "") →
    balLookup s.balances u = none →
    (batches.flatten = [] ∧
      balLookup (processBatches now s batches).balances u = none) ∨
    (∃ r, balLookup (processBatches now s batches).balances u = some r ∧
      (∃ x ∈ batches.flatten, r.version = x.payload.version ∧
        r.amount = GetAmount x.payload) ∧
      (∀ x ∈ batches.flatten, x.payload.version ≤ r.version)) := by
  intro batches
  induction batches with
  | nil =>
    intro s _ h0
    exact Or.inl ⟨rfl, h0⟩
  | cons b rest ih =>
    intro s hall h0
    have hallrest : ∀ x ∈ rest.flatten, x.payload.userID = u ∧ x.payload.eventID = "" := by
      intro x hx
      exact hall x (by rw [List.flatten_cons]; exact List.mem_append_right _ hx)
    cases b with
    | nil =>
      have hbal : (flush true true now s []).1.balances = s.balances := by
        rw [flush_state, (handleBatch_ok now s []).1]
        rfl
      rw [processBatches_cons]
      rcases ih (flush true true now s []).1 hallrest (hbal ▸ h0) with
        ⟨hj, hn⟩ | ⟨r, hr, ⟨x, hx, hxx⟩, hbound⟩
      · refine Or.inl ⟨?_, hn⟩
        rw [List.flatten_cons, hj]
        rfl
      · refine Or.inr ⟨r, hr,
          ⟨x, by rw [List.flatten_cons]; exact List.mem_append_right _ hx, hxx⟩, ?_⟩
        intro x2 hx2
        rw [List.flatten_cons] at hx2
        rcases List.mem_append.mp hx2 with h | h
        · cases h
        · exact hbound x2 h
    | cons y ys =>
      have hallb : ∀ z ∈ y :: ys, z.payload.userID = u ∧ z.payload.eventID = "" := by
        intro z hz
        exact hall z (by rw [List.flatten_cons]; exact List.mem_append_left _ hz)
      obtain ⟨wb, hwmem, hwmax, hbal⟩ := flush_lookup_batch now u s y ys hallb hu
      have hr1 := balLookup_upsertRow_self_none now ⟨u, GetAmount wb, wb.version⟩
        s.balances h0
      rw [processBatches_cons]
      obtain ⟨r, hr, hdisj, hle, hbound⟩ :=
        processBatches_row_some now u hu rest (flush true true now s (y :: ys)).1
          ⟨u, GetAmount wb, wb.version, now⟩
          hallrest (by rw [hbal]; exact hr1)
      refine Or.inr ⟨r, hr, ?_, ?_⟩
      · rcases hdisj with ⟨hv, ha⟩ | ⟨x, hx, hxx⟩
        · obtain ⟨z, hz, hzp⟩ := List.mem_map.mp hwmem
          refine ⟨z, ?_, ?_, ?_⟩
          · rw [List.flatten_cons]
            exact List.mem_append_left _ hz
          · rw [hv, hzp]
          · rw [ha, hzp]
        · exact ⟨x, by rw [List.flatten_cons]; exact List.mem_append_right _ hx, hxx⟩
      · intro x hx
        rw [List.flatten_cons] at hx
        rcases List.mem_append.mp hx with h | h
        · have hpx : x.payload ∈ (y :: ys).map (fun z => z.payload) :=
            List.mem_map_of_mem _ h
          exact Nat.le_trans (hwmax _ hpx) hle
        · exact hbound x h

/-- C2: for any sequence of updates to one entity pushed through the batch
pipeline (in-batch per-entity dedup followed by the version-guarded
upsert), in any order and any batch partitioning, starting with no stored
row for the entity: the final stored version and amount equal those of the
update carrying the globally maximum version. The messages carry empty
event_ids, so every update is applied; the hypotheses state the claim's
presupposition that the maximum-version update is well defined (all
updates at the maximum version agree on the amount). -/
theorem claim2_final_is_max_version (now : Nat) (u : Nat)
    (batches : List (List IncomingUpdate)) (s : DBState) (w : IncomingUpdate)
    (hu : u ≠ 0)
    (hnone : balLookup s.balances u = none)
    (hall : ∀ x ∈ batches.flatten, x.payload.userID = u ∧ x.payload.eventID = "")
    (hw : w ∈ batches.flatten)
    (hmax : ∀ x ∈ batches.flatten, x.payload.version ≤ w.payload.version)
    (huniq : ∀ x ∈ batches.flatten, x.payload.version = w.payload.version →
      GetAmount x.payload = GetAmount w.payload) :
    ∃ r, balLookup (processBatches now s batches).balances u = some r ∧
      r.version = w.payload.version ∧ r.amount = GetAmount w.payload := by
  rcases processBatches_row_none now u hu batches s hall hnone with
    ⟨hj, _⟩ | ⟨r, hr, ⟨x, hx, hxv, hxa⟩, hbound⟩
  · rw [hj] at hw
    cases hw
  · have h1 : r.version = w.payload.version :=
      Nat.le_antisymm (hxv ▸ hmax x hx) (hbound w hw)
    have h2 : r.amount = GetAmount w.payload := by
      rw [hxa]
      exact huniq x hx (by rw [← hxv, h1])
    exact ⟨r, hr, h1, h2⟩

theorem claim2_final_is_max_version_witness :
    ∃ r, balLookup (processBatches 0 ⟨[], [], []⟩
        [[⟨⟨7, 500, 0, 5, "", "", ""⟩, 1⟩, ⟨⟨7, 300, 0, 3, "", "", ""⟩, 2⟩]]).balances
        7 = some r ∧
      r.version = 5 ∧ r.amount = 500 := by
  have h := claim2_final_is_max_version 0 7
    [[⟨⟨7, 500, 0, 5, "", "", ""⟩, 1⟩, ⟨⟨7, 300, 0, 3, "", "", ""⟩, 2⟩]]
    ⟨[], [], []⟩ ⟨⟨7, 500, 0, 5, "", "", ""⟩, 1⟩
    (by decide) (by decide) (by decide) (by decide) (by decide) (by decide)
  simpa using h

end BalanceApp
